import Mathlib

/-!
Verification of the markdown normalization pipeline of the trpl-ebook book
assembler.  The Rust code processes documents line by line (`input.lines()`),
appending a newline after each emitted line; we embed a document as a list of
lines, each line a list of characters (no newline inside a line).  Regex-based
rewrites are embedded as explicit scanners with the leftmost-first matching
semantics of the regex engine.
-/

namespace Trpl

/-- A line of text (no newline characters inside). -/
abbrev Line := List Char

/-- The backtick character. -/
def btick : Char := Char.ofNat 96

/-- CODE_BLOCK_TOGGLE: three backticks at line start toggle fenced-code state. -/
def toggleTok : Line := [btick, btick, btick]

/-- The whitespace class of the regex engine (ASCII part). -/
def rsWs (c : Char) : Bool :=
  c = ' ' || c = '\t' || c = '\n' || c = '\r' || c = '\x0b' || c = '\x0c'

/-- `line.starts_with(CODE_BLOCK_TOGGLE)`. -/
def isToggle (l : Line) : Bool := toggleTok.isPrefixOf l

/-- Per-line outputs of a stateful line-oriented fold, threading the
in-code-block flag from line to line (each Rust transform is such a fold). -/
def lineOuts (step : Bool → Line → Bool × List Line) : Bool → List Line → List (List Line)
  | _, [] => []
  | s, l :: ls => (step s l).2 :: lineOuts step (step s l).1 ls

/-- Concatenated output of a line-oriented fold from initial state `s`. -/
def runLines (step : Bool → Line → Bool × List Line) (s : Bool) (doc : List Line) : List Line :=
  (lineOuts step s doc).flatten

/-- The fold state reached just before processing line `i`. -/
def stateAt (step : Bool → Line → Bool × List Line) (s : Bool) (doc : List Line) (i : Nat) : Bool :=
  (doc.take i).foldl (fun a l => (step a l).1) s

/-- Canonical fence tracking: a line starting with the toggle token flips the
state, every other line keeps it. -/
def flipTok (s : Bool) (l : Line) : Bool := if isToggle l then !s else s

/-- Canonical in-fence state just before line `i` (prose at the top). -/
def fenceStateAt (doc : List Line) (i : Nat) : Bool := (doc.take i).foldl flipTok false

/-! ### helpers/adjust_header_level.rs -/

/-- The headline pattern `^[#]+\s.+$`: a maximal run of hash marks, one
whitespace character, a nonempty title.  Returns (run length, title). -/
def parseHeadline (l : Line) : Option (Nat × Line) :=
  let d := (l.takeWhile (· = '#')).length
  if d = 0 then none
  else
    match l.drop d with
    | [] => none
    | c :: t => if rsWs c && !t.isEmpty then some (d, t) else none

/-- `calc_header_level`: new level = current + base - 1. -/
def calc_header_level (base_level current_level : Int) : Int :=
  current_level + base_level - 1

/-- The rewritten headline: the new hash run, a space, the original title
(`new_level as usize` is embedded as `Int.toNat`). -/
def mkHeadline (base : Int) (d : Nat) (t : Line) : Line :=
  List.replicate (calc_header_level base (d : Int)).toNat '#' ++ ' ' :: t

/-- Per-line behaviour of `adjust_header_level`: lines inside a fence pass
through untouched; toggle lines flip the state; headline lines are renumbered. -/
def ahlStep (base : Int) (s : Bool) (l : Line) : Bool × List Line :=
  if s && !isToggle l then (s, [l])
  else
    (flipTok s l,
      match parseHeadline l with
      | some (d, t) => [mkHeadline base d t]
      | none => [l])

/-- `adjust_header_level`. -/
def adjust_header_level (input : List Line) (base_level : Int) : List Line :=
  runLines (ahlStep base_level) false input

/-! ### helpers/line_breaks.rs -/

/-- The character loop of `break_long_line`: `idx` is the enumeration index,
`lineEnd` the next break position; on a break a newline and the separator are
emitted and `lineEnd` grows by `maxLen - sepLen - 1`. -/
def bllGo (maxLen sepLen : Nat) (sep : Line) : Nat → Nat → List Char → List Char
  | _, _, [] => []
  | idx, lineEnd, c :: cs =>
    if lineEnd - 1 ≤ idx then
      '\n' :: (sep ++ c :: bllGo maxLen sepLen sep (idx + 1) (lineEnd + (maxLen - sepLen - 1)) cs)
    else
      c :: bllGo maxLen sepLen sep (idx + 1) lineEnd cs

/-- `break_long_line` (the separator length is a glyph count, `chars().count()`). -/
def break_long_line (line : List Char) (max_len : Nat) (sep : Line) : List Char :=
  bllGo max_len sep.length sep 0 max_len line

/-- Split a character string at newline characters (the emitted lines). -/
def splitNl : List Char → List Line
  | [] => [[]]
  | c :: cs =>
    if c = '\n' then [] :: splitNl cs
    else
      match splitNl cs with
      | l :: ls => (c :: l) :: ls
      | [] => [[c]]

/-! ### helpers/normalize_code_blocks.rs -/

/-- Per-line behaviour of `break_code_blocks`: only lines strictly inside a
fence are reflowed; toggle lines flip the state and pass through. -/
def bcbStep (maxLen : Nat) (sep : Line) (s : Bool) (l : Line) : Bool × List Line :=
  if s && !isToggle l then (s, splitNl (break_long_line l maxLen sep))
  else (flipTok s l, [l])

/-- `break_code_blocks`. -/
def break_code_blocks (input : List Line) (max_len : Nat) (sep : Line) : List Line :=
  runLines (bcbStep max_len sep) false input

/-- `pat` occurs as a contiguous substring. -/
def infixOf (pat : List Char) : List Char → Bool
  | [] => pat.isEmpty
  | c :: cs => pat.isPrefixOf (c :: cs) || infixOf pat cs

def rustKw : List Char := ['r', 'u', 's', 't']

/-- The pattern `^(toggle)(.*)rust(.*)`: a toggle line mentioning rust after it. -/
def isRustStart (l : Line) : Bool := isToggle l && infixOf rustKw (l.drop 3)

/-- The hidden-code pattern `^# `. -/
def isHidden (l : Line) : Bool := l.take 2 == ['#', ' ']

/-- The canonical rust fence-open line. -/
def rustFence : Line := toggleTok ++ rustKw

/-- Per-line behaviour of `normalize_code_start`: hidden lines are dropped
while its flag is set; a rust fence-open line is canonicalized and sets the
flag; any other toggle line clears the flag. -/
def ncsStep (s : Bool) (l : Line) : Bool × List Line :=
  if s && isHidden l then (s, [])
  else if isRustStart l then (true, [rustFence])
  else if isToggle l then (false, [l])
  else (s, [l])

/-- `normalize_code_start`. -/
def normalize_code_start (input : List Line) : List Line :=
  runLines ncsStep false input

/-! ### helpers/adjust_reference_names.rs -/

/-- The namespaced id: chapter prefix, the two-hyphen delimiter, the id. -/
def nsId (pre id : List Char) : List Char := pre ++ '-' :: '-' :: id

/-- Two given characters occur adjacently (used to state that a piece of text
holds no start of a reference-link or title/filename match). -/
def hasAdjPair (x y : Char) : List Char → Bool
  | [] => false
  | [_] => false
  | c1 :: c2 :: cs => (c1 = x && c2 = y) || hasAdjPair x y (c2 :: cs)

/-- The scanning loop of the reference_link replace_all; the fuel is an upper
bound on the characters left, so the run from `l.length` never exhausts it. -/
def refLinkGo (pre : List Char) : Nat → List Char → List Char
  | _, [] => []
  | _, [c] => [c]
  | _, [c1, c2] => [c1, c2]
  | 0, l => l
  | fuel + 1, c1 :: c2 :: c3 :: cs2 =>
    if c1 = ']' && c2 = '[' then
      if (cs2.dropWhile (· ≠ ']')).isEmpty then c1 :: refLinkGo pre fuel (c2 :: c3 :: cs2)
      else
        ']' :: '[' :: nsId pre (c3 :: cs2.takeWhile (· ≠ ']')) ++
          ']' :: refLinkGo pre fuel ((cs2.dropWhile (· ≠ ']')).tail)
    else c1 :: refLinkGo pre fuel (c2 :: c3 :: cs2)

/-- replace_all of `\]\[(?P<id>.+?)\]`: every `][id]` becomes `][pre--id]`,
scanning left to right; the lazy id is one character plus everything up to the
next closing bracket. -/
def refLinkReplace (pre : List Char) (l : List Char) : List Char :=
  refLinkGo pre l.length l

/-- The scanning loop of is_match for the reference_link pattern. -/
def hasRefLinkGo : Nat → List Char → Bool
  | _, [] => false
  | _, [_] => false
  | _, [_, _] => false
  | 0, _ => false
  | fuel + 1, c1 :: c2 :: c3 :: cs2 =>
    if c1 = ']' && c2 = '[' then
      if (cs2.dropWhile (· ≠ ']')).isEmpty then hasRefLinkGo fuel (c2 :: c3 :: cs2) else true
    else hasRefLinkGo fuel (c2 :: c3 :: cs2)

/-- is_match of the reference_link pattern. -/
def hasRefLink (l : List Char) : Bool := hasRefLinkGo l.length l

/-- The scanning loop of the footnote replace_all. -/
def footnoteGo (pre : List Char) : Nat → List Char → List Char
  | _, [] => []
  | _, [c] => [c]
  | _, [c1, c2] => [c1, c2]
  | 0, l => l
  | fuel + 1, c1 :: c2 :: c3 :: cs2 =>
    if c1 = '[' && c2 = '^' then
      if (cs2.dropWhile (· ≠ ']')).isEmpty then c1 :: footnoteGo pre fuel (c2 :: c3 :: cs2)
      else
        '[' :: '^' :: nsId pre (c3 :: cs2.takeWhile (· ≠ ']')) ++
          ']' :: footnoteGo pre fuel ((cs2.dropWhile (· ≠ ']')).tail)
    else c1 :: footnoteGo pre fuel (c2 :: c3 :: cs2)

/-- replace_all of `\[\^(?P<id>.+?)\]`: every `[^id]` becomes `[^pre--id]`. -/
def footnoteReplace (pre : List Char) (l : List Char) : List Char :=
  footnoteGo pre l.length l

/-- The scanning loop of is_match for the footnote pattern. -/
def hasFootnoteGo : Nat → List Char → Bool
  | _, [] => false
  | _, [_] => false
  | _, [_, _] => false
  | 0, _ => false
  | fuel + 1, c1 :: c2 :: c3 :: cs2 =>
    if c1 = '[' && c2 = '^' then
      if (cs2.dropWhile (· ≠ ']')).isEmpty then hasFootnoteGo fuel (c2 :: c3 :: cs2) else true
    else hasFootnoteGo fuel (c2 :: c3 :: cs2)

/-- is_match of the footnote pattern. -/
def hasFootnote (l : List Char) : Bool := hasFootnoteGo l.length l

/-- Valid greedy split positions for `(id)\]:\s(link)` inside the bracket body:
`l.get? j` is the closing bracket, a colon and one whitespace follow, and both
id (before `j`) and link (after the whitespace) are nonempty. -/
def defSplitAt (l : List Char) (j : Nat) : Bool :=
  decide (1 ≤ j) && l.get? j == some ']' && l.get? (j + 1) == some ':' &&
    (match l.get? (j + 2) with | some c => rsWs c | none => false) &&
    decide (j + 3 < l.length)

/-- The greedy (`.+`) id split: the last valid position. -/
def defSplit (l : List Char) : Option (List Char × List Char) :=
  match ((List.range l.length).filter (defSplitAt l)).getLast? with
  | some j => some (l.take j, l.drop (j + 3))
  | none => none

/-- The reference_def pattern `^\[(\^)?(?P<id>.+)\]:\s(?P<link>.+)$` with the
optional footnote marker tried first. -/
def refDefParse (l : List Char) : Option (Bool × List Char × List Char) :=
  match l with
  | '[' :: cs =>
    (match cs with
     | '^' :: r =>
       (match defSplit r with
        | some (id, link) => some (true, id, link)
        | none =>
          match defSplit cs with
          | some (id, link) => some (false, id, link)
          | none => none)
     | _ =>
       match defSplit cs with
       | some (id, link) => some (false, id, link)
       | none => none)
  | _ => none

/-- The rewritten reference definition `[{footnote}{prefix}--{id}]: {link}`. -/
def mkRefDef (fn : Bool) (pre id link : List Char) : Line :=
  '[' :: ((if fn then ['^'] else []) ++ nsId pre id) ++ ']' :: ':' :: ' ' :: link

/-- Per-line behaviour of `adjust_reference_name`: lines inside a fence pass
through; otherwise the first matching rewrite (reference link, footnote,
reference definition) is applied, first match wins. -/
def arnStep (pre : List Char) (s : Bool) (l : Line) : Bool × List Line :=
  if s && !isToggle l then (s, [l])
  else
    (flipTok s l,
      if hasRefLink l then [refLinkReplace pre l]
      else if hasFootnote l then [footnoteReplace pre l]
      else
        match refDefParse l with
        | some (fn, id, link) => [mkRefDef fn pre id link]
        | none => [l])

/-- `adjust_reference_name`. -/
def adjust_reference_name (input : List Line) (pre : List Char) : List Line :=
  runLines (arnStep pre) false input

/-! ### helpers/remove_file_title.rs -/

/-- `remove_file_title`: drop a leading pandoc `% title` line (pattern
`^%\s(.+)\n`, anchored at the start of the document, first occurrence only). -/
def remove_file_title : List Line → List Line
  | [] => []
  | l :: ls =>
    match l with
    | '%' :: c :: t => if rsWs c && !t.isEmpty then ls else l :: ls
    | _ => l :: ls

/-! ### helpers/normalize.rs -/

/-- The scanning loop of `str::replace` (fuel bounds the characters left). -/
def replaceGo (pat rep : List Char) : Nat → List Char → List Char
  | _, [] => []
  | 0, l => l
  | fuel + 1, c :: cs =>
    if pat.isPrefixOf (c :: cs) && !pat.isEmpty then
      rep ++ replaceGo pat rep fuel (cs.drop (pat.length - 1))
    else c :: replaceGo pat rep fuel cs

/-- `str::replace`: rewrite every non-overlapping occurrence of `pat`, left to
right. -/
def replaceAll (pat rep : List Char) (l : List Char) : List Char :=
  replaceGo pat rep l.length l

/-- The character class `[\w-_]` (ASCII part of `\w`, plus the hyphen). -/
def isLinkChar (c : Char) : Bool := c.isAlphanum || c = '_' || c = '-'

/-- Characters excluded by the class `[^:^/]`. -/
def notFileChar (c : Char) : Bool := c = ':' || c = '^' || c = '/'

def s2l (s : String) : List Char := s.data

/-- The scanning loop of the cross_section_link replace_all. -/
def csLinkGo : Nat → List Char → List Char
  | _, [] => []
  | _, [c] => [c]
  | 0, l => l
  | fuel + 1, c1 :: c2 :: cs =>
    if c1 = ']' && c2 = '(' then
      if !(cs.takeWhile isLinkChar).isEmpty &&
          (s2l ".html)").isPrefixOf (cs.dropWhile isLinkChar) then
        ']' :: '(' :: '#' :: s2l "sec--" ++ cs.takeWhile isLinkChar ++
          ')' :: csLinkGo fuel ((cs.dropWhile isLinkChar).drop 6)
      else c1 :: csLinkGo fuel (c2 :: cs)
    else c1 :: csLinkGo fuel (c2 :: cs)

/-- replace_all of the cross_section_link pattern
`]\((?P<file>[\w-_]+)\.html\)` with `](#sec--$file)`. -/
def csLinkRepl (l : List Char) : List Char := csLinkGo l.length l

/-- The scanning loop of the cross_subsection_link replace_all. -/
def cssLinkGo : Nat → List Char → List Char
  | _, [] => []
  | _, [c] => [c]
  | 0, l => l
  | fuel + 1, c1 :: c2 :: cs =>
    if c1 = ']' && c2 = '(' then
      if !(cs.takeWhile isLinkChar).isEmpty &&
          (s2l ".html#").isPrefixOf (cs.dropWhile isLinkChar) &&
          !(((cs.dropWhile isLinkChar).drop 6).takeWhile isLinkChar).isEmpty &&
          (((cs.dropWhile isLinkChar).drop 6).dropWhile isLinkChar).head? == some ')' then
        ']' :: '(' :: '#' :: ((cs.dropWhile isLinkChar).drop 6).takeWhile isLinkChar ++
          ')' :: cssLinkGo fuel ((((cs.dropWhile isLinkChar).drop 6).dropWhile isLinkChar).tail)
      else c1 :: cssLinkGo fuel (c2 :: cs)
    else c1 :: cssLinkGo fuel (c2 :: cs)

/-- replace_all of the cross_subsection_link pattern
`]\((?P<file>[\w-_]+)\.html#(?P<subsection>[\w-_]+)\)` with `](#$subsection)`. -/
def cssLinkRepl (l : List Char) : List Char := cssLinkGo l.length l

/-- Valid (greedy, hence last) split positions of the cross_section_ref line
pattern `^\[(?P<id>.+)\]:\s(?P<file>[^:^/]+)\.html$`. -/
def csRefAt (l : List Char) (j : Nat) : Bool :=
  decide (2 ≤ j) && l.get? j == some ']' && l.get? (j + 1) == some ':' &&
    (match l.get? (j + 2) with | some c => rsWs c | none => false) &&
    (decide (1 ≤ (l.drop (j + 3)).length - 5) &&
      (l.drop (j + 3)).drop ((l.drop (j + 3)).length - 5) == s2l ".html" &&
      ((l.drop (j + 3)).take ((l.drop (j + 3)).length - 5)).all (fun c => !notFileChar c))

/-- The cross_section_ref rewrite `[$id]: #sec--$file` (one line, anchored). -/
def csRefLine (l : List Char) : List Char :=
  if l.head? == some '[' then
    match ((List.range l.length).filter (csRefAt l)).getLast? with
    | some j =>
      '[' :: l.tail.take (j - 1) ++ ']' :: ':' :: ' ' :: '#' :: s2l "sec--" ++
        (l.drop (j + 3)).take ((l.drop (j + 3)).length - 5)
    | none => l
  else l

/-- Valid (greedy, hence last) split positions of the cross_subsection_ref line
pattern `^\[(?P<id>.+)\]:\s(?P<file>[^:^/]+)\.html#(?P<subsection>[\w-_]+)$`. -/
def cssRefAt (l : List Char) (j : Nat) : Bool :=
  decide (2 ≤ j) && l.get? j == some ']' && l.get? (j + 1) == some ':' &&
    (match l.get? (j + 2) with | some c => rsWs c | none => false) &&
    (decide (1 ≤ ((l.drop (j + 3)).reverse.takeWhile isLinkChar).length) &&
      ((l.drop (j + 3)).reverse.dropWhile isLinkChar).take 6 == s2l "#lmth." &&
      decide (1 ≤ (((l.drop (j + 3)).reverse.dropWhile isLinkChar).drop 6).length) &&
      (((l.drop (j + 3)).reverse.dropWhile isLinkChar).drop 6).all (fun c => !notFileChar c))

/-- The cross_subsection_ref rewrite `[$id]: #$subsection` (one line, anchored). -/
def cssRefLine (l : List Char) : List Char :=
  if l.head? == some '[' then
    match ((List.range l.length).filter (cssRefAt l)).getLast? with
    | some j =>
      '[' :: l.tail.take (j - 1) ++ ']' :: ':' :: ' ' :: '#' ::
        ((l.drop (j + 3)).reverse.takeWhile isLinkChar).reverse
    | none => l
  else l

/-- The static prefix-substitution table of `normalize_links`. -/
def linkTable : List (List Char × List Char) :=
  [ (s2l "../std", s2l "http://doc.rust-lang.org/std"),
    (s2l "../reference", s2l "http://doc.rust-lang.org/reference"),
    (s2l "../rustc", s2l "http://doc.rust-lang.org/rustc"),
    (s2l "../syntax", s2l "http://doc.rust-lang.org/syntax"),
    (s2l "../book", s2l "http://doc.rust-lang.org/book"),
    (s2l "../adv-book", s2l "http://doc.rust-lang.org/adv-book"),
    (s2l "../core", s2l "http://doc.rust-lang.org/core") ]

/-- `normalize_links` on one line (all patterns are newline-free, and the
`(?m)` patterns are line-anchored, so the string-level pass is line-wise). -/
def normalize_links_line (l : Line) : Line :=
  cssRefLine (cssLinkRepl (csRefLine (csLinkRepl
    (linkTable.foldl (fun acc p => replaceAll p.1 p.2 acc) l))))

/-- `normalize_links`. -/
def normalize_links (input : List Line) : List Line := input.map normalize_links_line

/-- replace_all of the superscript pattern `(\d+)<sup>(\d+)</sup>` with
`$1^$2^`: a maximal digit run, the literal `<sup>`, a nonempty digit run, the
literal `</sup>`. -/
def nmGo : Nat → List Char → List Char
  | _, [] => []
  | 0, l => l
  | fuel + 1, c :: cs =>
    if c.isDigit then
      if (s2l "<sup>").isPrefixOf ((c :: cs).dropWhile Char.isDigit) &&
          !((((c :: cs).dropWhile Char.isDigit).drop 5).takeWhile Char.isDigit).isEmpty &&
          (s2l "</sup>").isPrefixOf
            ((((c :: cs).dropWhile Char.isDigit).drop 5).dropWhile Char.isDigit) then
        (c :: cs).takeWhile Char.isDigit ++ '^' ::
          (((c :: cs).dropWhile Char.isDigit).drop 5).takeWhile Char.isDigit ++ '^' ::
          nmGo fuel (((((c :: cs).dropWhile Char.isDigit).drop 5).dropWhile Char.isDigit).drop 6)
      else (c :: cs).takeWhile Char.isDigit ++ nmGo fuel ((c :: cs).dropWhile Char.isDigit)
    else c :: nmGo fuel cs

/-- replace_all of the superscript pattern on one line. -/
def nmScan (l : List Char) : List Char := nmGo l.length l

/-- `normalize_math`. -/
def normalize_math (input : List Line) : List Line := input.map nmScan

/-- `normalize`: break_code_blocks at width 87, then normalize_code_start,
normalize_links and normalize_math. -/
def normalize (input : List Line) : List Line :=
  normalize_math (normalize_links (normalize_code_start
    (break_code_blocks input 87 (s2l "↳ "))))

/-! ### read_toc.rs and convert_book/markdown.rs -/

structure Chapter where
  file : List Char
  headline : List Char
deriving DecidableEq, Repr

/-- The first adjacent closing-bracket/opening-paren pair: (before, after). -/
def splitRBLP : List Char → Option (List Char × List Char)
  | [] => none
  | [_] => none
  | c1 :: c2 :: cs =>
    if c1 = ']' && c2 = '(' then some ([], cs)
    else
      match splitRBLP (c2 :: cs) with
      | some (a, b) => some (c1 :: a, b)
      | none => none

/-- After a bullet `*`: one separator character, `[`, a lazy nonempty title up
to the first bracket-paren pair, a lazy nonempty filename up to the first
closing paren.  `wsAny` selects the `\s` separator of the markdown.rs variant
over the literal space of read_toc.rs. -/
def starTail (wsAny : Bool) (l : List Char) : Option (List Char × List Char) :=
  match l with
  | c0 :: '[' :: cs =>
    if (if wsAny then rsWs c0 else c0 = ' ') then
      match cs with
      | [] => none
      | c :: cs2 =>
        match splitRBLP cs2 with
        | some (a, b) =>
          match b with
          | [] => none
          | d :: b2 =>
            if (b2.dropWhile (· ≠ ')')).isEmpty then none
            else some (c :: a, d :: b2.takeWhile (· ≠ ')'))
        | none => none
    else none
  | _ => none

/-- Leftmost-first search of the toc_pattern
`(?P<indent>\s*?)\* \[(?P<title>.+?)\]\((?P<filename>.+?)\)`: the first bullet
with a valid tail wins, and the indent group is nonempty exactly when the
character right before that bullet is whitespace. -/
def findEntryGo (wsAny : Bool) : Bool → List Char → Option (Bool × List Char × List Char)
  | _, [] => none
  | prevWs, c :: cs =>
    if c = '*' then
      match starTail wsAny cs with
      | some (t, f) => some (prevWs, t, f)
      | none => findEntryGo wsAny false cs
    else findEntryGo wsAny (rsWs c) cs

/-- The `\w` class (ASCII part). -/
def isWordChar (c : Char) : Bool := c.isAlphanum || c = '_'

/-- The basename: everything after the optional greedy `(?P<path>(.*)/)`. -/
def baseOf (f : List Char) : List Char := (f.reverse.takeWhile (· ≠ '/')).reverse

/-- The name group of the filename_pattern
`^(?P<path>(.*)/)?(?P<name>(.*?))(?P<ext>\.(\w*))?$`: the basename with its
extension stripped when the part after the last dot is all word characters. -/
def stemOf (f : List Char) : List Char :=
  if ((baseOf f).reverse.takeWhile (· ≠ '.')).length = (baseOf f).reverse.length then baseOf f
  else if ((baseOf f).reverse.takeWhile (· ≠ '.')).all isWordChar then
    ((baseOf f).reverse.drop (((baseOf f).reverse.takeWhile (· ≠ '.')).length + 1)).reverse
  else baseOf f

/-- The generated headline `{level} {name} {#sec--{link}}` plus newline. -/
def mkChapterHeadline (ind : Bool) (t f : List Char) : List Char :=
  (if ind then s2l "##" else s2l "#") ++ ' ' :: t ++ s2l " \x7b#sec--" ++ stemOf f ++ s2l "\x7d\n"

/-- One TOC line to an optional Chapter. -/
def lineChapter (wsAny : Bool) (l : List Char) : Option Chapter :=
  match findEntryGo wsAny false l with
  | some (ind, t, f) => some { file := f, headline := mkChapterHeadline ind t f }
  | none => none

/-- `get_chapters` of read_toc.rs. -/
def get_chapters (toc : List Line) : List Chapter := toc.filterMap (lineChapter false)

/-- `get_chapters` of convert_book/markdown.rs (the `\s` separator variant). -/
def get_chapters_md (toc : List Line) : List Chapter := toc.filterMap (lineChapter true)

/-- Join lines back into document text, a newline after each line, as the
line-oriented folds do. -/
def renderDoc (doc : List Line) : List Char := (doc.map (· ++ ['\n'])).flatten

/-- The per-chapter transform sequence of `to_single_file`. -/
def chapterPipeline (base : Int) (pre : List Char) (d : List Line) : List Line :=
  normalize (adjust_reference_name (remove_file_title (adjust_header_level d base)) pre)

/-- `to_single_file`: the meta block, the readme as a generated Introduction
(base level 1, prefix "readme") when present, then every TOC chapter behind its
generated headline (base level 3, prefix = the chapter's file name).  File
reads are modelled by the `readme` option and the `store` map. -/
def to_single_file (meta : List Char) (toc : List Line) (readme : Option (List Line))
    (store : List Char → List Line) : List Char :=
  (get_chapters_md toc).foldl
    (fun acc ch =>
      acc ++ s2l "\n\n" ++ ch.headline ++ '\n' ::
        renderDoc (chapterPipeline 3 ch.file (store ch.file)))
    (meta ++ '\n' ::
      (match readme with
       | some r =>
         s2l "\n\n" ++ s2l "# Introduction" ++ s2l "\n\n" ++
           renderDoc (chapterPipeline 1 (s2l "readme") r)
       | none => []))

/-- Concrete end-to-end inputs: the table of contents. -/
def c9toc : List Line := [s2l "* [Readme](readme.md)", s2l "* [Title](ch1.md)"]

/-- Concrete end-to-end inputs: the readme chapter (no heading). -/
def c9readme : List Line := [s2l "Lorem readme."]

/-- Concrete end-to-end inputs: chapter ch1.md with one level-1 heading. -/
def c9ch1 : List Line := [s2l "# Title", s2l "", s2l "Ch1 text."]

/-- Concrete end-to-end inputs: the file store. -/
def c9store : List Char → List Line := fun f =>
  if f = s2l "readme.md" then c9readme else if f = s2l "ch1.md" then c9ch1 else []

/-- The assembled book for the concrete end-to-end inputs. -/
def c9book : List Char := to_single_file [] c9toc (some c9readme) c9store

/-! ## Fold machinery lemmas -/

theorem lineOuts_length (step : Bool → Line → Bool × List Line) (s : Bool) (doc : List Line) :
    (lineOuts step s doc).length = doc.length := by
  induction doc generalizing s with
  | nil => rfl
  | cons l ls ih => simp [lineOuts, ih]

theorem stateAt_zero (step : Bool → Line → Bool × List Line) (s : Bool) (doc : List Line) :
    stateAt step s doc 0 = s := rfl

theorem stateAt_succ_cons (step : Bool → Line → Bool × List Line) (s : Bool) (l : Line)
    (ls : List Line) (i : Nat) :
    stateAt step s (l :: ls) (i + 1) = stateAt step (step s l).1 ls i := by
  simp [stateAt]

/-- The `i`-th per-line output of a fold is the step applied to the `i`-th
line at the fold state reached there. -/
theorem lineOuts_getD (step : Bool → Line → Bool × List Line) :
    ∀ (doc : List Line) (s : Bool) (i : Nat), i < doc.length →
      (lineOuts step s doc).getD i [] = (step (stateAt step s doc i) (doc.getD i [])).2 := by
  intro doc
  induction doc with
  | nil => intro s i h; simp at h
  | cons l ls ih =>
    intro s i h
    cases i with
    | zero => simp [lineOuts, stateAt_zero]
    | succ j =>
      have hj : j < ls.length := by simpa using h
      simp only [lineOuts, List.getD_cons_succ, stateAt_succ_cons]
      exact ih (step s l).1 j hj

/-- Folds whose state component is the canonical flip agree with the canonical
fence tracker. -/
theorem stateAt_flip (step : Bool → Line → Bool × List Line)
    (hf : ∀ s l, (step s l).1 = flipTok s l) :
    ∀ (doc : List Line) (s : Bool) (i : Nat),
      stateAt step s doc i = (doc.take i).foldl flipTok s := by
  intro doc
  induction doc with
  | nil => intro s i; simp [stateAt]
  | cons l ls ih =>
    intro s i
    cases i with
    | zero => rfl
    | succ j =>
      simp only [stateAt_succ_cons, List.take_succ_cons, List.foldl_cons, hf]
      exact ih (flipTok s l) j

/-- Folds whose state component is the canonical flip, started on prose,
compute the canonical fence classification. -/
theorem stateAt_fence (step : Bool → Line → Bool × List Line)
    (hf : ∀ s l, (step s l).1 = flipTok s l) (doc : List Line) (i : Nat) :
    stateAt step false doc i = fenceStateAt doc i :=
  stateAt_flip step hf doc false i

/-! ## Per-step state lemmas -/

theorem ahlStep_fst (b : Int) (s : Bool) (l : Line) : (ahlStep b s l).1 = flipTok s l := by
  unfold ahlStep
  split
  · rename_i h
    simp only [Bool.and_eq_true, Bool.not_eq_true'] at h
    simp [flipTok, h.1, h.2]
  · rfl

theorem arnStep_fst (pre : List Char) (s : Bool) (l : Line) :
    (arnStep pre s l).1 = flipTok s l := by
  unfold arnStep
  split
  · rename_i h
    simp only [Bool.and_eq_true, Bool.not_eq_true'] at h
    simp [flipTok, h.1, h.2]
  · rfl

theorem bcbStep_fst (w : Nat) (m : Line) (s : Bool) (l : Line) :
    (bcbStep w m s l).1 = flipTok s l := by
  unfold bcbStep
  split
  · rename_i h
    simp only [Bool.and_eq_true, Bool.not_eq_true'] at h
    simp [flipTok, h.1, h.2]
  · rfl

theorem isHidden_isToggle_false (l : Line) (h : isHidden l = true) : isToggle l = false := by
  match l with
  | [] => simp [isHidden] at h
  | [c] => simp [isHidden, List.take] at h
  | c1 :: c2 :: cs =>
    simp only [isHidden, List.take, beq_iff_eq, List.cons.injEq, and_true] at h
    obtain ⟨h1, h2, -⟩ := h
    subst h1
    simp [isToggle, toggleTok, List.isPrefixOf, btick]

/-! ## Line breaking lemmas -/

theorem splitNl_ne_nil (s : List Char) : splitNl s ≠ [] := by
  cases s with
  | nil => simp [splitNl]
  | cons c cs =>
    simp only [splitNl]
    split
    · simp
    · cases h : splitNl cs <;> simp

theorem splitNl_nl (s : List Char) : splitNl ('\n' :: s) = [] :: splitNl s := by
  simp [splitNl]

theorem splitNl_cons (c : Char) (cs : List Char) (hc : c ≠ '\n') :
    splitNl (c :: cs) = (c :: (splitNl cs).headI) :: (splitNl cs).tail := by
  obtain ⟨h, t, he⟩ := List.exists_cons_of_ne_nil (splitNl_ne_nil cs)
  simp [splitNl, hc, he]

theorem splitNl_append_left (a : List Char) (s : List Char) (ha : ¬ '\n' ∈ a) :
    splitNl (a ++ s) = (a ++ (splitNl s).headI) :: (splitNl s).tail := by
  induction a with
  | nil =>
    obtain ⟨h, t, he⟩ := List.exists_cons_of_ne_nil (splitNl_ne_nil s)
    simp [he]
  | cons c a' ih =>
    have hc : c ≠ '\n' := by
      simp only [List.mem_cons, not_or] at ha
      exact fun he => ha.1 he.symm
    have ha' : ¬ '\n' ∈ a' := by
      simp only [List.mem_cons, not_or] at ha
      exact ha.2
    rw [List.cons_append, splitNl_cons c _ hc, ih ha']
    simp

/-- Invariant of the break_long_line character loop: the current (first) line
can still take `lineEnd - 1 - idx` characters, and every later line is the
separator plus at most `1 + (maxLen - sepLen - 2)` characters. -/
theorem bllGo_bound (maxLen : Nat) (sep : Line) (hsep : ¬ '\n' ∈ sep) :
    ∀ (cs : List Char) (idx lineEnd : Nat), ¬ '\n' ∈ cs →
      (splitNl (bllGo maxLen sep.length sep idx lineEnd cs)).headI.length ≤ lineEnd - 1 - idx ∧
      ∀ l' ∈ (splitNl (bllGo maxLen sep.length sep idx lineEnd cs)).tail,
        ∃ t, l' = sep ++ t ∧ t.length ≤ 1 + (maxLen - sep.length - 2) := by
  intro cs
  induction cs with
  | nil => intro idx lineEnd _; simp [bllGo, splitNl]
  | cons c cs ih =>
    intro idx lineEnd hmem
    have hc : c ≠ '\n' := by
      simp only [List.mem_cons, not_or] at hmem
      exact fun he => hmem.1 he.symm
    have hcs : ¬ '\n' ∈ cs := by
      simp only [List.mem_cons, not_or] at hmem
      exact hmem.2
    rw [bllGo]
    split
    · rename_i hbr
      obtain ⟨hX, tX⟩ := ih (idx + 1) (lineEnd + (maxLen - sep.length - 1)) hcs
      rw [splitNl_nl, splitNl_append_left sep _ hsep, splitNl_cons c _ hc]
      refine ⟨by simp, ?_⟩
      intro l' hl'
      simp only [List.tail_cons, List.headI_cons, List.mem_cons] at hl'
      rcases hl' with rfl | hmem2
      · refine ⟨c :: (splitNl (bllGo maxLen sep.length sep (idx + 1)
          (lineEnd + (maxLen - sep.length - 1)) cs)).headI, by simp, ?_⟩
        simp only [List.length_cons]
        omega
      · exact tX l' hmem2
    · rename_i hbr
      obtain ⟨hX, tX⟩ := ih (idx + 1) lineEnd hcs
      rw [splitNl_cons c _ hc]
      constructor
      · simp only [List.headI_cons, List.length_cons]
        omega
      · simpa using tX

/-- Every line emitted by break_long_line is at most `maxLen` glyphs, provided
the width leaves room for at least the marker and one character. -/
theorem break_long_line_lines (line : List Char) (maxLen : Nat) (sep : Line)
    (h1 : ¬ '\n' ∈ line) (h2 : ¬ '\n' ∈ sep) (h3 : sep.length + 1 ≤ maxLen) :
    ∀ l' ∈ splitNl (break_long_line line maxLen sep), l'.length ≤ maxLen := by
  have hb := bllGo_bound maxLen sep h2 line 0 maxLen h1
  unfold break_long_line
  intro l' hl'
  obtain ⟨h, t, he⟩ :=
    List.exists_cons_of_ne_nil (splitNl_ne_nil (bllGo maxLen sep.length sep 0 maxLen line))
  rw [he] at hl' hb
  simp only [List.headI_cons, List.tail_cons] at hb
  rcases List.mem_cons.1 hl' with rfl | hmem
  · omega
  · obtain ⟨t', rfl, hlt⟩ := hb.2 l' hmem
    rw [List.length_append]
    omega

/-- Below the width the character loop never breaks. -/
theorem bllGo_short (maxLen sepLen : Nat) (sep : Line) :
    ∀ (cs : List Char) (idx lineEnd : Nat), idx + cs.length + 1 ≤ lineEnd →
      bllGo maxLen sepLen sep idx lineEnd cs = cs := by
  intro cs
  induction cs with
  | nil => intro idx lineEnd _; rfl
  | cons c cs ih =>
    intro idx lineEnd h
    rw [bllGo, if_neg (by simp only [List.length_cons] at h; omega)]
    rw [ih (idx + 1) lineEnd (by simp only [List.length_cons] at h; omega)]

/-- A line strictly shorter than the width is returned untouched. -/
theorem break_long_line_short (line : List Char) (maxLen : Nat) (sep : Line)
    (h : line.length + 1 ≤ maxLen) : break_long_line line maxLen sep = line :=
  bllGo_short maxLen sep.length sep line 0 maxLen (by omega)

theorem ncsStep_fst (s : Bool) (l : Line) :
    (ncsStep s l).1 = if isRustStart l then true else if isToggle l then false else s := by
  unfold ncsStep
  split
  · rename_i h
    simp only [Bool.and_eq_true] at h
    have ht := isHidden_isToggle_false l h.2
    have hr : isRustStart l = false := by simp [isRustStart, ht]
    simp [hr, ht, h.1]
  · split
    · rename_i h2
      simp [h2]
    · split
      · rename_i h2 h3
        simp only [Bool.not_eq_true] at h2
        simp [isRustStart, h2, h3] at *
      · rename_i h2 h3
        simp only [Bool.not_eq_true] at h2 h3
        simp [isRustStart, h2, h3] at *

/-! ## Headline parsing lemmas -/

theorem takeWhile_hash (d : Nat) (t : Line) :
    (List.replicate d '#' ++ ' ' :: t).takeWhile (· = '#') = List.replicate d '#' := by
  induction d with
  | zero => simp [List.takeWhile_cons]
  | succ n ih => simp [List.replicate_succ, List.takeWhile_cons, ih]

theorem parseHeadline_heading (d : Nat) (t : Line) (hd : 1 ≤ d) (ht : t ≠ []) :
    parseHeadline (List.replicate d '#' ++ ' ' :: t) = some (d, t) := by
  unfold parseHeadline
  rw [takeWhile_hash]
  simp only [List.length_replicate]
  rw [if_neg (by omega), List.drop_left' (by simp)]
  simp [rsWs, ht]

theorem isToggle_hash (d : Nat) (hd : 1 ≤ d) (x : List Char) :
    isToggle (List.replicate d '#' ++ x) = false := by
  cases d with
  | zero => omega
  | succ n => rfl

/-! ## Claims C1, C3, C4, C5, C6 -/

/-- C1: outside a code fence, a heading line of `d ≥ 1` hash marks, a space
and a nonempty title is rewritten by the heading level adjuster (base level
`b ≥ 1`) to a heading of exactly `d + b - 1` hash marks with the same title,
and calc_header_level maps (1,1)→1, (1,2)→2, (2,2)→3, (2,1)→2. -/
theorem claim_C1 :
    (∀ (doc : List Line) (b : Int) (i d : Nat) (t : Line),
      1 ≤ b → 1 ≤ d → i < doc.length → fenceStateAt doc i = false →
      doc.getD i [] = List.replicate d '#' ++ ' ' :: t → t ≠ [] →
      (lineOuts (ahlStep b) false doc).getD i [] =
        [List.replicate (d + b.toNat - 1) '#' ++ ' ' :: t]) ∧
    calc_header_level 1 1 = 1 ∧ calc_header_level 1 2 = 2 ∧
    calc_header_level 2 2 = 3 ∧ calc_header_level 2 1 = 2 := by
  refine ⟨?_, by decide, by decide, by decide, by decide⟩
  intro doc b i d t hb hd hi hfence hline ht
  rw [lineOuts_getD _ doc false i hi, stateAt_fence _ (ahlStep_fst b) doc i, hfence, hline]
  unfold ahlStep
  rw [if_neg (by simp), parseHeadline_heading d t hd ht]
  unfold mkHeadline calc_header_level
  have harith : ((d : Int) + b - 1).toNat = d + b.toNat - 1 := by omega
  simp [harith]

/-- C1 witness at base level 2 on the document with the single line
`## Hello`. -/
theorem claim_C1_witness :
    fenceStateAt [s2l "## Hello"] 0 = false ∧
    (lineOuts (ahlStep 2) false [s2l "## Hello"]).getD 0 [] =
      [List.replicate 3 '#' ++ ' ' :: s2l "Hello"] :=
  ⟨by decide,
   claim_C1.1 [s2l "## Hello"] 2 0 2 (s2l "Hello") (by decide) (by decide) (by decide)
     (by decide) (by decide) (by decide)⟩

/-- C3: the code line wrapper touches exactly the lines classified inside a
fence (fence delimiters and prose pass through verbatim), every line it emits
is at most the width in glyphs (whenever the width leaves room for the
marker), and concretely a 261-character fenced line at width 80 with the
two-glyph marker wraps into exactly 4 lines, each at most 80 glyphs, lines
2 to 4 prefixed with the marker. -/
theorem claim_C3 :
    (∀ (line : List Char) (maxLen : Nat) (sep : Line),
      ¬ '\n' ∈ line → ¬ '\n' ∈ sep → sep.length + 1 ≤ maxLen →
      ∀ l' ∈ splitNl (break_long_line line maxLen sep), l'.length ≤ maxLen) ∧
    (∀ (doc : List Line) (maxLen : Nat) (sep : Line) (i : Nat), i < doc.length →
      (lineOuts (bcbStep maxLen sep) false doc).getD i [] =
        if fenceStateAt doc i && !isToggle (doc.getD i []) then
          splitNl (break_long_line (doc.getD i []) maxLen sep)
        else [doc.getD i []]) ∧
    splitNl (break_long_line (List.replicate 261 'a') 80 (s2l "↳ ")) =
      [List.replicate 79 'a', s2l "↳ " ++ List.replicate 77 'a',
        s2l "↳ " ++ List.replicate 77 'a', s2l "↳ " ++ List.replicate 28 'a'] := by
  refine ⟨break_long_line_lines, ?_, by decide⟩
  intro doc maxLen sep i hi
  rw [lineOuts_getD _ doc false i hi, stateAt_fence _ (bcbStep_fst maxLen sep) doc i]
  unfold bcbStep
  cases hf : fenceStateAt doc i <;> cases ht : isToggle (doc.getD i []) <;> simp [flipTok, ht]

/-- C3 witness: width 5, one-glyph marker, a three-character fenced line. -/
theorem claim_C3_witness :
    (¬ '\n' ∈ s2l "abc") ∧ (¬ '\n' ∈ s2l ".") ∧ (s2l ".").length + 1 ≤ 5 ∧
    (∀ l' ∈ splitNl (break_long_line (s2l "abc") 5 (s2l ".")), l'.length ≤ 5) ∧
    0 < ([s2l "abc"] : List Line).length ∧
    (lineOuts (bcbStep 5 (s2l ".")) false [s2l "abc"]).getD 0 [] =
      (if fenceStateAt [s2l "abc"] 0 && !isToggle (([s2l "abc"] : List Line).getD 0 []) then
        splitNl (break_long_line (([s2l "abc"] : List Line).getD 0 []) 5 (s2l "."))
      else [([s2l "abc"] : List Line).getD 0 []]) :=
  ⟨by decide, by decide, by decide,
   claim_C3.1 (s2l "abc") 5 (s2l ".") (by decide) (by decide) (by decide),
   by decide,
   claim_C3.2.1 [s2l "abc"] 5 (s2l ".") 0 (by decide)⟩

/-- C4 (corrected): a line of at most `W - 1` glyphs is returned untouched
(no marker, no break); on longer lines the first emitted segment holds at
most `W - 1` glyphs (not the full `W`), and every later segment is the
marker followed by at most `W - k - 1` content glyphs, `k` the marker's
glyph count. -/
theorem claim_C4 :
    (∀ (line : List Char) (maxLen : Nat) (sep : Line),
      line.length + 1 ≤ maxLen → break_long_line line maxLen sep = line) ∧
    (∀ (line : List Char) (maxLen : Nat) (sep : Line),
      ¬ '\n' ∈ line → ¬ '\n' ∈ sep → sep.length + 2 ≤ maxLen →
      (splitNl (break_long_line line maxLen sep)).headI.length ≤ maxLen - 1 ∧
      ∀ l' ∈ (splitNl (break_long_line line maxLen sep)).tail,
        ∃ t, l' = sep ++ t ∧ t.length ≤ maxLen - sep.length - 1) := by
  refine ⟨break_long_line_short, ?_⟩
  intro line maxLen sep h1 h2 h3
  have hb := bllGo_bound maxLen sep h2 line 0 maxLen h1
  unfold break_long_line
  refine ⟨by have := hb.1; omega, fun l' hl' => ?_⟩
  obtain ⟨t, rfl, hlt⟩ := hb.2 l' hl'
  exact ⟨t, rfl, by omega⟩

/-- C4 counterexample: at width 5 a line of exactly 5 glyphs is split, its
first segment holding only 4 glyphs, so the first segment cannot use the
full width `W`. -/
theorem claim_C4_counterexample :
    (List.replicate 5 'a').length = 5 ∧
    break_long_line (List.replicate 5 'a') 5 (s2l ".") =
      List.replicate 4 'a' ++ '\n' :: '.' :: s2l "a" ∧
    (splitNl (break_long_line (List.replicate 5 'a') 5 (s2l "."))).headI.length = 4 := by
  decide

/-- C4 witness: an untouched short line and the segment bounds at width 5. -/
theorem claim_C4_witness :
    (s2l "ab").length + 1 ≤ 5 ∧ break_long_line (s2l "ab") 5 (s2l ".") = s2l "ab" ∧
    ((¬ '\n' ∈ s2l "abcdefgh") ∧ (¬ '\n' ∈ s2l ".") ∧ (s2l ".").length + 2 ≤ 5 ∧
      (splitNl (break_long_line (s2l "abcdefgh") 5 (s2l "."))).headI.length ≤ 5 - 1 ∧
      ∀ l' ∈ (splitNl (break_long_line (s2l "abcdefgh") 5 (s2l "."))).tail,
        ∃ t, l' = s2l "." ++ t ∧ t.length ≤ 5 - (s2l ".").length - 1) :=
  ⟨by decide, claim_C4.1 (s2l "ab") 5 (s2l ".") (by decide),
   by decide, by decide, by decide,
   (claim_C4.2 (s2l "abcdefgh") 5 (s2l ".") (by decide) (by decide) (by decide)).1,
   (claim_C4.2 (s2l "abcdefgh") 5 (s2l ".") (by decide) (by decide) (by decide)).2⟩

/-- C5: a line classified inside a code fence is emitted verbatim by the
heading level adjuster and by the reference namespacer, whatever its content
(heading-looking or reference-looking text included). -/
theorem claim_C5 :
    ∀ (doc : List Line) (b : Int) (pre : List Char) (i : Nat),
      i < doc.length → fenceStateAt doc i = true → isToggle (doc.getD i []) = false →
      (lineOuts (ahlStep b) false doc).getD i [] = [doc.getD i []] ∧
      (lineOuts (arnStep pre) false doc).getD i [] = [doc.getD i []] := by
  intro doc b pre i hi hf ht
  constructor
  · rw [lineOuts_getD _ doc false i hi, stateAt_fence _ (ahlStep_fst b) doc i, hf]
    unfold ahlStep
    rw [if_pos (by rw [ht]; decide)]
  · rw [lineOuts_getD _ doc false i hi, stateAt_fence _ (arnStep_fst pre) doc i, hf]
    unfold arnStep
    rw [if_pos (by rw [ht]; decide)]

/-- C5 witness: a fenced line that looks like a heading and like a reference
link passes through both transforms verbatim. -/
theorem claim_C5_witness :
    fenceStateAt [s2l "```", s2l "# not a [heading][x]", s2l "```"] 1 = true ∧
    (lineOuts (ahlStep 3) false [s2l "```", s2l "# not a [heading][x]", s2l "```"]).getD 1 [] =
      [([s2l "```", s2l "# not a [heading][x]", s2l "```"] : List Line).getD 1 []] ∧
    (lineOuts (arnStep (s2l "ch1")) false
        [s2l "```", s2l "# not a [heading][x]", s2l "```"]).getD 1 [] =
      [([s2l "```", s2l "# not a [heading][x]", s2l "```"] : List Line).getD 1 []] :=
  ⟨by decide,
   (claim_C5 [s2l "```", s2l "# not a [heading][x]", s2l "```"] 3 (s2l "ch1") 1
     (by decide) (by decide) (by decide)).1,
   (claim_C5 [s2l "```", s2l "# not a [heading][x]", s2l "```"] 3 (s2l "ch1") 1
     (by decide) (by decide) (by decide)).2⟩

/-- C6 counterexample: in the code fence canonicalizer, the toggle line
(three backticks followed by sh) does not flip the prose state to in-fence;
it leaves the state off, against the canonical flip contract. -/
theorem claim_C6_counterexample :
    isToggle (s2l "```sh") = true ∧ (ncsStep false (s2l "```sh")).1 = false ∧
    flipTok false (s2l "```sh") = true := by decide

/-- C6 (corrected): the heading adjuster, the reference namespacer and the
code line wrapper all track fences canonically (state starts false, any
toggle line flips it, no other line changes it, so their fold state equals
the canonical tracker at every position); the fence canonicalizer instead
sets its state on a rust fence-open line and clears it on any other toggle
line.  State never carries across chapters: every transform starts its fold
at false. -/
theorem claim_C6 :
    (∀ (b : Int) (s : Bool) (l : Line), (ahlStep b s l).1 = flipTok s l) ∧
    (∀ (pre : List Char) (s : Bool) (l : Line), (arnStep pre s l).1 = flipTok s l) ∧
    (∀ (w : Nat) (m : Line) (s : Bool) (l : Line), (bcbStep w m s l).1 = flipTok s l) ∧
    (∀ (s : Bool) (l : Line),
      (ncsStep s l).1 = if isRustStart l then true else if isToggle l then false else s) ∧
    (∀ (b : Int) (doc : List Line) (i : Nat),
      stateAt (ahlStep b) false doc i = fenceStateAt doc i) ∧
    (∀ (pre : List Char) (doc : List Line) (i : Nat),
      stateAt (arnStep pre) false doc i = fenceStateAt doc i) ∧
    (∀ (w : Nat) (m : Line) (doc : List Line) (i : Nat),
      stateAt (bcbStep w m) false doc i = fenceStateAt doc i) :=
  ⟨ahlStep_fst, arnStep_fst, bcbStep_fst, ncsStep_fst,
   fun b doc i => stateAt_fence _ (ahlStep_fst b) doc i,
   fun pre doc i => stateAt_fence _ (arnStep_fst pre) doc i,
   fun w m doc i => stateAt_fence _ (bcbStep_fst w m) doc i⟩

/-! ## Claim C7 -/

theorem isRustStart_isHidden_false (l : Line) (h : isRustStart l = true) :
    isHidden l = false := by
  simp only [isRustStart, Bool.and_eq_true, isToggle] at h
  obtain ⟨tl, rfl⟩ := List.isPrefixOf_iff_prefix.1 h.1
  show isHidden (btick :: btick :: btick :: tl) = false
  simp only [isHidden, List.take_succ_cons, List.take_zero]
  decide

theorem ncsStep_snd_rust (s : Bool) (l : Line) (hr : isRustStart l = true) :
    (ncsStep s l).2 = [rustFence] := by
  unfold ncsStep
  rw [if_neg (by rw [isRustStart_isHidden_false _ hr]; simp), if_pos hr]

theorem ncsStep_snd_hidden (s : Bool) (l : Line) (hs : s = true) (hh : isHidden l = true) :
    (ncsStep s l).2 = [] := by
  unfold ncsStep
  rw [if_pos (by rw [hs, hh]; decide)]

/-- C7 counterexample: a hidden-marker line canonically classified inside a
fence (opened by a non-rust toggle line) is not dropped by the canonicalizer;
it is emitted verbatim. -/
theorem claim_C7_counterexample :
    fenceStateAt [s2l "```sh", s2l "# hidden", s2l "```"] 1 = true ∧
    isHidden (s2l "# hidden") = true ∧
    (lineOuts ncsStep false [s2l "```sh", s2l "# hidden", s2l "```"]).getD 1 [] =
      [s2l "# hidden"] := by decide

/-- C7 (corrected): any line starting with the toggle token and mentioning
the rust keyword anywhere after it (whatever the other metadata) is emitted
as the canonical bare rust fence-open, and a line beginning with the hidden
marker is dropped while the canonicalizer's own state is in-fence - that
state being set only by a rust fence-open line (hidden lines inside non-rust
fences survive). -/
theorem claim_C7 :
    ∀ (doc : List Line) (i : Nat), i < doc.length →
      (isRustStart (doc.getD i []) = true →
        (lineOuts ncsStep false doc).getD i [] = [rustFence]) ∧
      (stateAt ncsStep false doc i = true → isHidden (doc.getD i []) = true →
        (lineOuts ncsStep false doc).getD i [] = []) := by
  intro doc i hi
  constructor
  · intro hr
    rw [lineOuts_getD _ doc false i hi]
    exact ncsStep_snd_rust _ _ hr
  · intro hs hh
    rw [lineOuts_getD _ doc false i hi]
    exact ncsStep_snd_hidden _ _ hs hh

/-- C7 witness: the three spec fence-open forms all canonicalize to the bare
rust fence, and a hidden line directly after a rust open is dropped. -/
theorem claim_C7_witness :
    (lineOuts ncsStep false [s2l "```\x7brust,ignore\x7d", s2l "x", s2l "```",
        s2l "``` rust,no_extras", s2l "```", s2l "```rust", s2l "# hide", s2l "```"]).getD 0 [] =
      [rustFence] ∧
    (lineOuts ncsStep false [s2l "```\x7brust,ignore\x7d", s2l "x", s2l "```",
        s2l "``` rust,no_extras", s2l "```", s2l "```rust", s2l "# hide", s2l "```"]).getD 3 [] =
      [rustFence] ∧
    (lineOuts ncsStep false [s2l "```\x7brust,ignore\x7d", s2l "x", s2l "```",
        s2l "``` rust,no_extras", s2l "```", s2l "```rust", s2l "# hide", s2l "```"]).getD 5 [] =
      [rustFence] ∧
    (lineOuts ncsStep false [s2l "```\x7brust,ignore\x7d", s2l "x", s2l "```",
        s2l "``` rust,no_extras", s2l "```", s2l "```rust", s2l "# hide", s2l "```"]).getD 6 [] =
      [] :=
  ⟨(claim_C7 _ 0 (by decide)).1 (by decide),
   (claim_C7 _ 3 (by decide)).1 (by decide),
   (claim_C7 _ 5 (by decide)).1 (by decide),
   (claim_C7 _ 6 (by decide)).2 (by decide) (by decide)⟩

/-! ## Reference link scanning lemmas -/

theorem refLinkGo_fuel (pre : List Char) :
    ∀ (f1 : Nat) (l : List Char) (f2 : Nat), l.length ≤ f1 → l.length ≤ f2 →
      refLinkGo pre f1 l = refLinkGo pre f2 l := by
  intro f1
  induction f1 with
  | zero =>
    intro l f2 h1 _
    obtain rfl := List.length_eq_zero.1 (Nat.le_zero.1 h1)
    cases f2 <;> rfl
  | succ f ih =>
    intro l f2 h1 h2
    match l with
    | [] => cases f2 <;> rfl
    | [c] => cases f2 <;> rfl
    | [c1, c2] => cases f2 <;> rfl
    | c1 :: c2 :: c3 :: cs2 =>
      simp only [List.length_cons] at h1 h2
      cases f2 with
      | zero => omega
      | succ g =>
        have h5 : (cs2.dropWhile (· ≠ ']')).length ≤ cs2.length :=
          (List.dropWhile_sublist _).length_le
        have h6 := List.length_tail (cs2.dropWhile (· ≠ ']'))
        simp only [refLinkGo]
        split
        · split
          · rw [ih (c2 :: c3 :: cs2) g (by simp only [List.length_cons]; omega)
              (by simp only [List.length_cons]; omega)]
          · rw [ih ((cs2.dropWhile (· ≠ ']')).tail) g (by omega) (by omega)]
        · rw [ih (c2 :: c3 :: cs2) g (by simp only [List.length_cons]; omega)
            (by simp only [List.length_cons]; omega)]

theorem refLinkReplace_cons_ne (pre : List Char) (x : Char) (xs : List Char) (hx : x ≠ ']') :
    refLinkReplace pre (x :: xs) = x :: refLinkReplace pre xs := by
  match xs with
  | [] => rfl
  | [c] => rfl
  | c2 :: c3 :: cs2 =>
    simp only [refLinkReplace, List.length_cons, refLinkGo]
    rw [if_neg (by simp [hx])]

theorem refLinkReplace_cons_of_not_start (pre : List Char) (c1 c2 : Char) (cs0 : List Char)
    (h : (c1 = ']' && c2 = '[') = false) :
    refLinkReplace pre (c1 :: c2 :: cs0) = c1 :: refLinkReplace pre (c2 :: cs0) := by
  match cs0 with
  | [] => rfl
  | c3 :: cs2 =>
    simp only [refLinkReplace, List.length_cons, refLinkGo]
    rw [if_neg (by simp [h])]

theorem refLinkReplace_pass (pre : List Char) (a xs : List Char) (ha : ']' ∉ a) :
    refLinkReplace pre (a ++ xs) = a ++ refLinkReplace pre xs := by
  induction a with
  | nil => simp
  | cons x a' ih =>
    have hx : x ≠ ']' := by
      simp only [List.mem_cons, not_or] at ha
      exact fun he => ha.1 he.symm
    have ha' : ']' ∉ a' := by
      simp only [List.mem_cons, not_or] at ha
      exact ha.2
    rw [List.cons_append, refLinkReplace_cons_ne pre x _ hx, ih ha', List.cons_append]

theorem takeWhile_ne_append (z : Char) (a b : List Char) (ha : z ∉ a) :
    (a ++ z :: b).takeWhile (· ≠ z) = a := by
  induction a with
  | nil => simp [List.takeWhile_cons]
  | cons x a' ih =>
    have hx : x ≠ z := by
      simp only [List.mem_cons, not_or] at ha
      exact fun he => ha.1 he.symm
    have ha' : z ∉ a' := by
      simp only [List.mem_cons, not_or] at ha
      exact ha.2
    rw [List.cons_append, List.takeWhile_cons, if_pos (decide_eq_true hx), ih ha']

theorem dropWhile_ne_append (z : Char) (a b : List Char) (ha : z ∉ a) :
    (a ++ z :: b).dropWhile (· ≠ z) = z :: b := by
  induction a with
  | nil => simp [List.dropWhile_cons]
  | cons x a' ih =>
    have hx : x ≠ z := by
      simp only [List.mem_cons, not_or] at ha
      exact fun he => ha.1 he.symm
    have ha' : z ∉ a' := by
      simp only [List.mem_cons, not_or] at ha
      exact ha.2
    rw [List.cons_append, List.dropWhile_cons, if_pos (decide_eq_true hx), ih ha']

theorem refLinkReplace_match (pre : List Char) (id rest : List Char)
    (hid : id ≠ []) (hid2 : ']' ∉ id) :
    refLinkReplace pre (']' :: '[' :: (id ++ ']' :: rest)) =
      ']' :: '[' :: (nsId pre id ++ ']' :: refLinkReplace pre rest) := by
  match id, hid with
  | c3 :: id', _ =>
    have hid' : ']' ∉ id' := by
      simp only [List.mem_cons, not_or] at hid2
      exact hid2.2
    simp only [refLinkReplace, List.length_cons, List.cons_append, refLinkGo, List.append_eq]
    rw [if_pos (by decide), dropWhile_ne_append ']' id' rest hid', takeWhile_ne_append ']' id' rest hid']
    rw [if_neg (by simp)]
    simp only [List.tail_cons]
    rw [refLinkGo_fuel pre _ rest rest.length (by simp [List.length_append]; omega) le_rfl]

theorem hasRefLink_cons_ne (x : Char) (xs : List Char) (hx : x ≠ ']') :
    hasRefLink (x :: xs) = hasRefLink xs := by
  match xs with
  | [] => rfl
  | [c] => rfl
  | c2 :: c3 :: cs2 =>
    simp only [hasRefLink, List.length_cons, hasRefLinkGo]
    rw [if_neg (by simp [hx])]

theorem hasRefLink_pass (a xs : List Char) (ha : ']' ∉ a) :
    hasRefLink (a ++ xs) = hasRefLink xs := by
  induction a with
  | nil => simp
  | cons x a' ih =>
    have hx : x ≠ ']' := by
      simp only [List.mem_cons, not_or] at ha
      exact fun he => ha.1 he.symm
    have ha' : ']' ∉ a' := by
      simp only [List.mem_cons, not_or] at ha
      exact ha.2
    rw [List.cons_append, hasRefLink_cons_ne x _ hx, ih ha']

theorem hasRefLink_match (id rest : List Char) (hid : id ≠ []) (hid2 : ']' ∉ id) :
    hasRefLink (']' :: '[' :: (id ++ ']' :: rest)) = true := by
  match id, hid with
  | c3 :: id', _ =>
    have hid' : ']' ∉ id' := by
      simp only [List.mem_cons, not_or] at hid2
      exact hid2.2
    simp only [hasRefLink, List.length_cons, List.cons_append, hasRefLinkGo, List.append_eq]
    rw [if_pos (by decide), dropWhile_ne_append ']' id' rest hid']
    simp

theorem hasAdjPair_cons_ne (x y c : Char) (xs : List Char) (hc : c ≠ x) :
    hasAdjPair x y (c :: xs) = hasAdjPair x y xs := by
  match xs with
  | [] => rfl
  | c2 :: cs => simp [hasAdjPair, hc]

theorem hasAdjPair_pass (x y : Char) (a xs : List Char) (ha : x ∉ a) :
    hasAdjPair x y (a ++ xs) = hasAdjPair x y xs := by
  induction a with
  | nil => simp
  | cons c a' ih =>
    have hc : c ≠ x := by
      simp only [List.mem_cons, not_or] at ha
      exact fun he => ha.1 he.symm
    have ha' : x ∉ a' := by
      simp only [List.mem_cons, not_or] at ha
      exact ha.2
    rw [List.cons_append, hasAdjPair_cons_ne x y c _ hc, ih ha']

theorem hasAdjPair_cons_pair_ne (x y c : Char) (xs : List Char) (hc : c ≠ y) :
    hasAdjPair x y (x :: c :: xs) = hasAdjPair x y (c :: xs) := by
  simp [hasAdjPair, hc]

theorem hasAdjPair_none (x y : Char) (xs : List Char) (hx : x ∉ xs) :
    hasAdjPair x y xs = false := by
  induction xs with
  | nil => rfl
  | cons c cs ih =>
    have hc : c ≠ x := by
      simp only [List.mem_cons, not_or] at hx
      exact fun he => hx.1 he.symm
    have hcs : x ∉ cs := by
      simp only [List.mem_cons, not_or] at hx
      exact hx.2
    rw [hasAdjPair_cons_ne x y c cs hc, ih hcs]

theorem refLinkReplace_noPair (pre : List Char) (xs : List Char)
    (h : hasAdjPair ']' '[' xs = false) : refLinkReplace pre xs = xs := by
  induction xs with
  | nil => rfl
  | cons c1 cs ih =>
    match cs with
    | [] => rfl
    | c2 :: cs0 =>
      have hp : (c1 = ']' && c2 = '[') = false ∧ hasAdjPair ']' '[' (c2 :: cs0) = false := by
        have hd : hasAdjPair ']' '[' (c1 :: c2 :: cs0) =
            ((c1 = ']' && c2 = '[') || hasAdjPair ']' '[' (c2 :: cs0)) := rfl
        rw [hd] at h
        exact Bool.or_eq_false_iff.1 h
      rw [refLinkReplace_cons_of_not_start pre c1 c2 cs0 hp.1, ih hp.2]

/-- Evaluation of the namespacer on a prose line whose first matching branch
is the reference-link one. -/
theorem arnStep_false_ref (pre : List Char) (l : Line) (ht : isToggle l = false)
    (hr : hasRefLink l = true) :
    arnStep pre false l = (false, [refLinkReplace pre l]) := by
  unfold arnStep
  rw [if_neg (by simp)]
  simp [flipTok, ht, hr]

theorem isToggle_cons_ne (c : Char) (l : List Char) (hc : c ≠ btick) :
    isToggle (c :: l) = false := by
  simp only [isToggle, toggleTok, List.isPrefixOf, Bool.and_eq_false_iff]
  left
  exact beq_eq_false_iff_ne.2 (fun he => hc he.symm)

/-! ## Claims C2 and C10 -/

theorem nsId_append_inj : ∀ (p1 p2 i1 i2 : List Char), '-' ∉ p1 → '-' ∉ p2 →
    nsId p1 i1 = nsId p2 i2 → p1 = p2 ∧ i1 = i2 := by
  intro p1
  induction p1 with
  | nil =>
    intro p2 i1 i2 _ h2 he
    cases p2 with
    | nil =>
      refine ⟨rfl, ?_⟩
      simpa [nsId] using he
    | cons d p2' =>
      exfalso
      simp only [nsId, List.nil_append, List.cons_append, List.cons.injEq] at he
      apply h2
      rw [← he.1]
      exact List.mem_cons_self _ _
  | cons c p1' ih =>
    intro p2 i1 i2 h1 h2 he
    cases p2 with
    | nil =>
      exfalso
      simp only [nsId, List.cons_append, List.nil_append, List.cons.injEq] at he
      apply h1
      rw [he.1]
      exact List.mem_cons_self _ _
    | cons d p2' =>
      have h1' : '-' ∉ p1' := fun hm => h1 (List.mem_cons_of_mem _ hm)
      have h2' : '-' ∉ p2' := fun hm => h2 (List.mem_cons_of_mem _ hm)
      simp only [nsId, List.cons_append, List.cons.injEq] at he
      obtain ⟨rfl, he2⟩ := he
      obtain ⟨hp, hi⟩ := ih p2' i1 i2 h1' h2' he2
      exact ⟨by rw [hp], hi⟩

/-- C2 counterexample: two distinct prefixes and two distinct ids that
collide after namespacing, because a prefix may itself contain hyphens. -/
theorem claim_C2_counterexample :
    nsId (s2l "a") (s2l "-x") = nsId (s2l "a-") (s2l "x") ∧
    s2l "a" ≠ s2l "a-" ∧ s2l "-x" ≠ s2l "x" := by decide

/-- C2 (corrected): outside a fence an inline reference link `[title][id]` is
rewritten to `[title][prefix--id]`; namespacing is injective across distinct
hyphen-free prefixes (not across arbitrary distinct prefixes: prefixes that
contain hyphens can collide); concretely `amet` under `readme` and under
`ch1` map to the distinct `readme--amet` and `ch1--amet`. -/
theorem claim_C2 :
    (∀ (pre t id : List Char), ']' ∉ t → ']' ∉ id → id ≠ [] →
      arnStep pre false ('[' :: t ++ ']' :: '[' :: id ++ [']']) =
        (false, ['[' :: t ++ ']' :: '[' :: nsId pre id ++ [']']])) ∧
    (∀ (p1 p2 i1 i2 : List Char), '-' ∉ p1 → '-' ∉ p2 → p1 ≠ p2 →
      nsId p1 i1 ≠ nsId p2 i2) ∧
    nsId (s2l "readme") (s2l "amet") = s2l "readme--amet" ∧
    nsId (s2l "ch1") (s2l "amet") = s2l "ch1--amet" ∧
    s2l "readme--amet" ≠ s2l "ch1--amet" := by
  refine ⟨?_, ?_, by decide, by decide, by decide⟩
  · intro pre t id h1 h2 h3
    simp only [List.cons_append, List.append_assoc]
    have ht : isToggle ('[' :: (t ++ ']' :: '[' :: (id ++ [']']))) = false :=
      isToggle_cons_ne _ _ (by decide)
    have hr : hasRefLink ('[' :: (t ++ ']' :: '[' :: (id ++ [']']))) = true := by
      rw [hasRefLink_cons_ne _ _ (by decide), hasRefLink_pass t _ h1,
        hasRefLink_match id [] h3 h2]
    rw [arnStep_false_ref pre _ ht hr]
    rw [refLinkReplace_cons_ne _ _ _ (by decide), refLinkReplace_pass pre t _ h1,
      refLinkReplace_match pre id [] h3 h2]
    rfl
  · intro p1 p2 i1 i2 hp1 hp2 hne he
    exact hne (nsId_append_inj p1 p2 i1 i2 hp1 hp2 he).1

/-- C2 witness: the rewrite on `[dolor sit][amet]` under prefix `readme`, and
injectivity for the prefixes `readme` and `ch1` with id `amet`. -/
theorem claim_C2_witness :
    (']' ∉ s2l "dolor sit") ∧ (']' ∉ s2l "amet") ∧ s2l "amet" ≠ [] ∧
    arnStep (s2l "readme") false ('[' :: s2l "dolor sit" ++ ']' :: '[' :: s2l "amet" ++ [']']) =
      (false, ['[' :: s2l "dolor sit" ++ ']' :: '[' :: nsId (s2l "readme") (s2l "amet") ++
        [']']]) ∧
    ('-' ∉ s2l "readme") ∧ ('-' ∉ s2l "ch1") ∧ s2l "readme" ≠ s2l "ch1" ∧
    nsId (s2l "readme") (s2l "amet") ≠ nsId (s2l "ch1") (s2l "amet") :=
  ⟨by decide, by decide, by decide,
   claim_C2.1 (s2l "readme") (s2l "dolor sit") (s2l "amet") (by decide) (by decide) (by decide),
   by decide, by decide, by decide,
   claim_C2.2.1 (s2l "readme") (s2l "ch1") (s2l "amet") (s2l "amet")
     (by decide) (by decide) (by decide)⟩

/-- C10: the namespacer's branches are mutually exclusive with the
reference-link branch winning: on a prose line holding an inline reference
link together with a footnote reference and a definition-looking tail, only
the link id is prefixed; the footnote id and the definition id stay
untouched. -/
theorem claim_C10 :
    ∀ (pre t id fid did u : List Char),
      ']' ∉ t → ']' ∉ id → id ≠ [] → ']' ∉ fid → ']' ∉ did → ']' ∉ u →
      arnStep pre false ('[' :: t ++ ']' :: '[' :: id ++ ']' :: ' ' :: '[' :: '^' :: fid ++
          ']' :: ' ' :: '[' :: did ++ ']' :: ':' :: ' ' :: u) =
        (false, ['[' :: t ++ ']' :: '[' :: nsId pre id ++ ']' :: ' ' :: '[' :: '^' :: fid ++
          ']' :: ' ' :: '[' :: did ++ ']' :: ':' :: ' ' :: u]) := by
  intro pre t id fid did u h1 h2 h3 h4 h5 h6
  simp only [List.cons_append, List.append_assoc]
  have hnp : hasAdjPair ']' '['
      (' ' :: '[' :: '^' :: (fid ++ ']' :: ' ' :: '[' :: (did ++ ']' :: ':' :: ' ' :: u))) =
      false := by
    rw [hasAdjPair_cons_ne _ _ ' ' _ (by decide), hasAdjPair_cons_ne _ _ '[' _ (by decide),
      hasAdjPair_cons_ne _ _ '^' _ (by decide), hasAdjPair_pass _ _ fid _ h4,
      hasAdjPair_cons_pair_ne _ _ ' ' _ (by decide), hasAdjPair_cons_ne _ _ ' ' _ (by decide),
      hasAdjPair_cons_ne _ _ '[' _ (by decide), hasAdjPair_pass _ _ did _ h5,
      hasAdjPair_cons_pair_ne _ _ ':' _ (by decide), hasAdjPair_cons_ne _ _ ':' _ (by decide),
      hasAdjPair_cons_ne _ _ ' ' _ (by decide), hasAdjPair_none _ _ u h6]
  have ht : isToggle ('[' :: (t ++ ']' :: '[' :: (id ++ ']' :: ' ' :: '[' :: '^' ::
      (fid ++ ']' :: ' ' :: '[' :: (did ++ ']' :: ':' :: ' ' :: u))))) = false :=
    isToggle_cons_ne _ _ (by decide)
  have hr : hasRefLink ('[' :: (t ++ ']' :: '[' :: (id ++ ']' :: ' ' :: '[' :: '^' ::
      (fid ++ ']' :: ' ' :: '[' :: (did ++ ']' :: ':' :: ' ' :: u))))) = true := by
    rw [hasRefLink_cons_ne _ _ (by decide), hasRefLink_pass t _ h1,
      hasRefLink_match id _ h3 h2]
  rw [arnStep_false_ref pre _ ht hr]
  rw [refLinkReplace_cons_ne _ _ _ (by decide), refLinkReplace_pass pre t _ h1,
    refLinkReplace_match pre id _ h3 h2, refLinkReplace_noPair pre _ hnp]

/-- C10 witness on a concrete line with a link, a footnote and a definition
tail. -/
theorem claim_C10_witness :
    (']' ∉ s2l "dolor") ∧ (']' ∉ s2l "amet") ∧ s2l "amet" ≠ [] ∧
    (']' ∉ s2l "fn1") ∧ (']' ∉ s2l "other") ∧ (']' ∉ s2l "http://x") ∧
    arnStep (s2l "PREFIX") false ('[' :: s2l "dolor" ++ ']' :: '[' :: s2l "amet" ++
        ']' :: ' ' :: '[' :: '^' :: s2l "fn1" ++
        ']' :: ' ' :: '[' :: s2l "other" ++ ']' :: ':' :: ' ' :: s2l "http://x") =
      (false, ['[' :: s2l "dolor" ++ ']' :: '[' :: nsId (s2l "PREFIX") (s2l "amet") ++
        ']' :: ' ' :: '[' :: '^' :: s2l "fn1" ++
        ']' :: ' ' :: '[' :: s2l "other" ++ ']' :: ':' :: ' ' :: s2l "http://x"]) :=
  ⟨by decide, by decide, by decide, by decide, by decide, by decide,
   claim_C10 (s2l "PREFIX") (s2l "dolor") (s2l "amet") (s2l "fn1") (s2l "other") (s2l "http://x")
     (by decide) (by decide) (by decide) (by decide) (by decide) (by decide)⟩

/-! ## Claim C8: the chapter table parser -/

theorem hasAdjPair_tail (x y c : Char) (xs : List Char)
    (h : hasAdjPair x y (c :: xs) = false) : hasAdjPair x y xs = false := by
  match xs with
  | [] => rfl
  | c2 :: cs =>
    have hd : hasAdjPair x y (c :: c2 :: cs) =
        ((c = x && c2 = y) || hasAdjPair x y (c2 :: cs)) := rfl
    rw [hd] at h
    exact (Bool.or_eq_false_iff.1 h).2

theorem splitRBLP_pass (a b : List Char) (ha : hasAdjPair ']' '(' a = false) :
    splitRBLP (a ++ ']' :: '(' :: b) = some (a, b) := by
  induction a with
  | nil => rfl
  | cons x a' ih =>
    cases a' with
    | nil =>
      simp [splitRBLP]
    | cons y a'' =>
      have hp : (x = ']' && y = '(') = false ∧ hasAdjPair ']' '(' (y :: a'') = false := by
        have hd : hasAdjPair ']' '(' (x :: y :: a'') =
            ((x = ']' && y = '(') || hasAdjPair ']' '(' (y :: a'')) := rfl
        rw [hd] at ha
        exact Bool.or_eq_false_iff.1 ha
      simp only [List.cons_append, List.append_eq, splitRBLP]
      rw [if_neg (by simp [hp.1])]
      rw [← List.cons_append, ih hp.2]

theorem starTail_family (wsAny : Bool) (t f : List Char) (htne : t ≠ [])
    (htp : hasAdjPair ']' '(' t = false) (hfne : f ≠ []) (hfp : ')' ∉ f) :
    starTail wsAny (' ' :: '[' :: (t ++ ']' :: '(' :: (f ++ [')']))) = some (t, f) := by
  match t, htne with
  | c :: t', _ =>
    have htp' : hasAdjPair ']' '(' t' = false := hasAdjPair_tail _ _ c t' htp
    match f, hfne with
    | d :: f', _ =>
      have hfp' : ')' ∉ f' := by
        simp only [List.mem_cons, not_or] at hfp
        exact hfp.2
      have hdw : List.dropWhile (fun x => !decide (x = ')')) (f' ++ [')']) = [')'] := by
        simpa using dropWhile_ne_append ')' f' [] hfp'
      have htw : List.takeWhile (fun x => !decide (x = ')')) (f' ++ [')']) = f' := by
        simpa using takeWhile_ne_append ')' f' [] hfp'
      simp only [List.cons_append, List.append_eq, starTail]
      rw [splitRBLP_pass t' (d :: (f' ++ [')'])) htp']
      simp [hdw, htw, rsWs]

theorem findEntryGo_ws (wsAny : Bool) (ws rest : List Char)
    (hws : ∀ c ∈ ws, rsWs c = true) :
    ∀ p : Bool, findEntryGo wsAny p (ws ++ rest) =
      findEntryGo wsAny (if ws.isEmpty then p else true) rest := by
  induction ws with
  | nil => intro p; simp
  | cons c ws' ih =>
    intro p
    have hc : rsWs c = true := hws c (List.mem_cons_self _ _)
    have hcs : ¬ (c = '*') := by
      intro he
      rw [he] at hc
      exact absurd hc (by decide)
    have hws' : ∀ x ∈ ws', rsWs x = true := fun x hx => hws x (List.mem_cons_of_mem _ hx)
    simp only [List.cons_append, List.append_eq, findEntryGo]
    rw [if_neg hcs, hc, ih hws' true]
    cases hw : ws'.isEmpty <;> simp

theorem findEntryGo_star (wsAny : Bool) (p : Bool) (tl t0 f0 : List Char)
    (h : starTail wsAny tl = some (t0, f0)) :
    findEntryGo wsAny p ('*' :: tl) = some (p, t0, f0) := by
  simp [findEntryGo, h]

/-- C8: the chapter table parser keeps document order and composes over
concatenation, silently skips every non-matching line, and a matching bullet
entry yields a chapter whose generated heading is level 1 exactly when the
bullet has no leading whitespace and level 2 otherwise. -/
theorem claim_C8 :
    (∀ (ls1 ls2 : List Line),
      get_chapters (ls1 ++ ls2) = get_chapters ls1 ++ get_chapters ls2) ∧
    (∀ (l : Line) (ls : List Line), lineChapter false l = none →
      get_chapters (l :: ls) = get_chapters ls) ∧
    (∀ (ws t f : List Char), (∀ c ∈ ws, rsWs c = true) → t ≠ [] →
      hasAdjPair ']' '(' t = false → f ≠ [] → ')' ∉ f →
      lineChapter false (ws ++ '*' :: ' ' :: '[' :: t ++ ']' :: '(' :: f ++ [')']) =
        some ⟨f, (if ws.isEmpty then s2l "#" else s2l "##") ++ ' ' :: t ++ s2l " \x7b#sec--" ++
          stemOf f ++ s2l "\x7d\n"⟩) := by
  refine ⟨fun ls1 ls2 => List.filterMap_append ls1 ls2 _, ?_, ?_⟩
  · intro l ls h
    simp [get_chapters, List.filterMap_cons, h]
  · intro ws t f hws ht htp hf hfp
    have hst := starTail_family false t f ht htp hf hfp
    unfold lineChapter
    rw [show (ws ++ '*' :: ' ' :: '[' :: t ++ ']' :: '(' :: f ++ [')']) =
      (ws ++ ('*' :: ' ' :: '[' :: (t ++ ']' :: '(' :: (f ++ [')'])))) from by
        simp [List.cons_append, List.append_assoc]]
    rw [findEntryGo_ws false ws _ hws false,
      findEntryGo_star false _ _ t f hst]
    simp only [mkChapterHeadline]
    cases hw : ws.isEmpty <;> simp

/-- C8 witness: an indented entry yields a level-2 heading, a free-text line
is skipped, and parsing distributes over concatenation. -/
theorem claim_C8_witness :
    (∀ c ∈ s2l "  ", rsWs c = true) ∧ s2l "Title" ≠ [] ∧
    hasAdjPair ']' '(' (s2l "Title") = false ∧ s2l "ch1.md" ≠ [] ∧ (')' ∉ s2l "ch1.md") ∧
    lineChapter false (s2l "  " ++ '*' :: ' ' :: '[' :: s2l "Title" ++ ']' :: '(' ::
        s2l "ch1.md" ++ [')']) =
      some ⟨s2l "ch1.md", (if (s2l "  ").isEmpty then s2l "#" else s2l "##") ++ ' ' ::
        s2l "Title" ++ s2l " \x7b#sec--" ++ stemOf (s2l "ch1.md") ++ s2l "\x7d\n"⟩ ∧
    lineChapter false (s2l "some free text") = none ∧
    get_chapters ([s2l "x"] ++ [s2l "y"]) = get_chapters [s2l "x"] ++ get_chapters [s2l "y"] :=
  ⟨by decide, by decide, by decide, by decide, by decide,
   claim_C8.2.2 (s2l "  ") (s2l "Title") (s2l "ch1.md")
     (by decide) (by decide) (by decide) (by decide) (by decide),
   by decide,
   claim_C8.1 [s2l "x"] [s2l "y"]⟩

/-! ## Claim C9: end-to-end assembly -/

/-- C9 counterexample: in the assembled book the generated chapter heading
for the depth-0 entry ch1.md is the level-1 `# Title {#sec--ch1}`, not the
level-3 `### Title {#sec--ch1}` the claim describes; the chapter's own `#`
heading is indeed rewritten to `###`, and the `# Introduction` section is
present. -/
theorem claim_C9_counterexample :
    infixOf (s2l "### Title \x7b#sec--ch1\x7d") c9book = false ∧
    infixOf (s2l "\n# Title \x7b#sec--ch1\x7d\n") c9book = true ∧
    infixOf (s2l "# Introduction") c9book = true ∧
    infixOf (s2l "\n### Title\n") c9book = true := by decide

/-- C9 (corrected): with the readme and ch1.md chapters, the table of
contents listing both at depth 0, and base levels 1 and 3, the output is the
meta block, a generated `# Introduction` followed by the readme content,
each chapter behind its generated level-1 heading `# ... {#sec--...}` (a
depth-0 entry yields level 1, not level 3), and the ch1 content with its
original `# Title` rewritten to `### Title`. -/
theorem claim_C9 :
    c9book = s2l "\n\n\n# Introduction\n\nLorem readme.\n\n\n# Readme \x7b#sec--readme\x7d\n\nLorem readme.\n\n\n# Title \x7b#sec--ch1\x7d\n\n### Title\n\nCh1 text.\n" := by
  decide

end Trpl
